import Mathlib

/-!
# Verification of the `tirse` binary serialization core

A shallow embedding of the crate's encoder/decoder pipeline
(`src/ser.rs`, `src/de.rs`, `src/io.rs`, `src/err.rs`) over `List Nat`
byte streams, together with theorems settling the specification claims.

Conventions:
* bytes are `Nat` values `< 256`; machine words are `Nat`/`Int` with
  explicit `% 2^w` where overflow matters;
* the slice-backed transport (`impl Read for slice::Iter<u8>` and
  `impl Write for slice::IterMut<u8>`) is modelled by explicit state
  passing (the remaining byte list, resp. buffer plus cursor);
* Rust `Result` becomes `Except`; a `panic!`-style abort (out-of-bounds,
  `copy_from_slice` length mismatch, integer-overflow check) is a
  distinguished outcome where a claim depends on it.
-/

namespace Tirse

/-- Byte order configured on the serializer/deserializer
(the `byteorder::ByteOrder` type parameter `E`). -/
inductive Endian where
  | little
  | big
deriving DecidableEq

/-- Little-endian byte decomposition of `n` into exactly `w` bytes
(the value is truncated modulo `2 ^ (8 * w)`, as the fixed-width
`byteorder::ByteOrder::write_uXX` functions do). -/
def writeBytesLE : Nat → Nat → List Nat
  | 0, _ => []
  | w + 1, n => n % 256 :: writeBytesLE w (n / 256)

/-- `byteorder`'s `write_uXX` for the configured byte order: big-endian
is the little-endian byte string reversed. -/
def writeWord (e : Endian) (w : Nat) (n : Nat) : List Nat :=
  match e with
  | .little => writeBytesLE w n
  | .big => (writeBytesLE w n).reverse

/-- Little-endian recomposition of a byte list into a `Nat`. -/
def readBytesLE : List Nat → Nat
  | [] => 0
  | b :: bs => b + 256 * readBytesLE bs

/-- `byteorder`'s `read_uXX` for the configured byte order, reading the
first `w` bytes of the slice. -/
def readWord (e : Endian) (w : Nat) (bs : List Nat) : Nat :=
  match e with
  | .little => readBytesLE (bs.take w)
  | .big => readBytesLE ((bs.take w).reverse)

/-- `io.rs`: `IoError { missing: ops::Range<usize> }`, the transport error
carrying the range of missing bytes. -/
structure IoError where
  start : Nat
  stop : Nat
deriving DecidableEq

/-- `impl<'de> Read<'de> for slice::Iter<'de, u8>`: `read(length)` over the
remaining bytes `r`.  Returns the result together with the new remaining
bytes (the iterator's position).

Faithful to the source line `self.nth(length - 1)`: for `length = 0` the
`usize` subtraction wraps around (release build), so `nth(usize::MAX)`
drains the whole iterator; a debug build panics on the same subtraction.
We model the release behaviour: the read succeeds with an empty slice but
the position jumps to the end. -/
def sliceIterRead (r : List Nat) (length : Nat) : Except IoError (List Nat) × List Nat :=
  if r.length < length then
    (.error ⟨r.length, length⟩, r)
  else if length = 0 then
    (.ok [], [])
  else
    (.ok (r.take length), r.drop length)

/-- `<slice::Iter<u8> as Read>::is`: `Some(())` iff bytes remain. -/
def sliceIterIs (r : List Nat) : Bool :=
  r.length != 0

/-- Outcome of the fixed-capacity slice writer. `panicked` models the Rust
panic raised by `copy_from_slice` on a length mismatch. -/
inductive WriteOutcome where
  | ok (buf : List Nat) (pos : Nat)
  | err (e : IoError) (buf : List Nat) (pos : Nat)
  | panicked
deriving DecidableEq

/-- `<[u8]>::copy_from_slice`: replaces `dst` by `src` when the lengths
agree, and panics (`none`) otherwise. -/
def copyFromSlice (dst src : List Nat) : Option (List Nat) :=
  if dst.length = src.length then some src else none

/-- `impl<'de> Write for slice::IterMut<'de, u8>`: the writer owns a fixed
buffer `buf` with cursor `pos` (the iterator is the window `buf.drop pos`).
`write(bytes)` checks the remaining capacity (`size_hint().0`), then copies
`bytes` over the whole remaining window with `copy_from_slice` and re-points
the iterator at `slice[length..]`. -/
def sliceIterMutWrite (buf : List Nat) (pos : Nat) (bytes : List Nat) : WriteOutcome :=
  let limit := buf.length - pos
  let length := bytes.length
  if limit < length then
    .err ⟨limit, length⟩ buf pos
  else
    match copyFromSlice (buf.drop pos) bytes with
    | none => .panicked
    | some s => .ok (buf.take pos ++ s) (pos + length)

/-- The deserializer-side wire-format delegate
(`trait BinaryDeserializerDelegate` in `io.rs`), as a bundle of the policy
functions the decoder consults. -/
structure DeDelegate where
  variantSize : Nat
  lengthSize : Nat
  sequenceLengthSize : Nat
  charSize : Nat
  decodeVariant : Endian → List Nat → Nat
  decodeLength : Endian → List Nat → Nat
  decodeSequenceLength : Endian → List Nat → Option Nat
  decodeChar : Endian → List Nat → Except Nat Nat

/-- Is `c` a Unicode scalar value?  (`core::char::from_u32` succeeds iff
the code is below `0x110000` and outside the surrogate range.) -/
def isValidScalar (c : Nat) : Bool :=
  decide (c < 0x110000) && !(decide (0xD800 ≤ c) && decide (c ≤ 0xDFFF))

/-- `DefaultBinaryDeserializerDelegate` on a 64-bit platform:
4-byte variant and char codes, 8-byte (`usize`) lengths, and no sequence
length prefix at all (`sequence_length_size` is `0` and
`decode_sequence_length` always answers "unknown"). -/
def defaultDelegate : DeDelegate where
  variantSize := 4
  lengthSize := 8
  sequenceLengthSize := 0
  charSize := 4
  decodeVariant := fun e bs => readWord e 4 bs
  decodeLength := fun e bs => readWord e 8 bs
  decodeSequenceLength := fun _ _ => none
  decodeChar := fun e bs =>
    let code := readWord e 4 bs
    if isValidScalar code then .ok code else .error code

/-- A deliberately non-default delegate used to check which decode paths
consult the delegate: its variant policy disagrees with the plain 32-bit
one in both width and value. -/
def contrarianDelegate : DeDelegate where
  variantSize := 2
  lengthSize := 8
  sequenceLengthSize := 0
  charSize := 4
  decodeVariant := fun _ _ => 7
  decodeLength := fun e bs => readWord e 8 bs
  decodeSequenceLength := fun _ _ => none
  decodeChar := fun e bs =>
    let code := readWord e 4 bs
    if isValidScalar code then .ok code else .error code

mutual
/-- A Value Kind: the static description of a value's shape that the
value-model layer (serde's `Deserialize` derivation) feeds to the decoder,
one constructor per `Deserializer` entry point the crate implements. -/
inductive Shape where
  | bool
  | u8
  | u16
  | u32
  | u64
  | i8
  | i16
  | i32
  | i64
  | f32
  | f64
  | char
  | str
  | bytes
  | option (s : Shape)
  | unit
  | seq (s : Shape)
  | tuple (ss : List Shape)
  | map (ks vs : Shape)
  | enum (vs : List VariantShape)

/-- The shape of one enum variant (unit / newtype / tuple / struct form),
as the serde data model distinguishes them. -/
inductive VariantShape where
  | unit
  | newtype (s : Shape)
  | tuple (ss : List Shape)
  | struct (ss : List Shape)
end

/-- A runtime value of the serde data model.  Integers carry their
mathematical value (`Nat`, or `Int` for the signed kinds); floats carry
their raw IEEE bit pattern (so NaN/Infinity payloads are first-class);
strings and byte strings carry their byte lists; struct and tuple-struct
values are both `tuple` (the encoder erases field names). -/
inductive Value where
  | bool (b : Bool)
  | u8 (v : Nat)
  | u16 (v : Nat)
  | u32 (v : Nat)
  | u64 (v : Nat)
  | i8 (v : Int)
  | i16 (v : Int)
  | i32 (v : Int)
  | i64 (v : Int)
  | f32 (bits : Nat)
  | f64 (bits : Nat)
  | char (c : Nat)
  | str (bs : List Nat)
  | bytes (bs : List Nat)
  | option (o : Option Value)
  | unit
  | seq (xs : List Value)
  | tuple (xs : List Value)
  | map (ps : List (Value × Value))
  | enumUnit (idx : Nat)
  | enumNewtype (idx : Nat) (v : Value)
  | enumTuple (idx : Nat) (xs : List Value)
  | enumStruct (idx : Nat) (xs : List Value)

/-- Reinterpret a `w`-byte unsigned value as two's-complement signed
(the `as i8`/`read_i16`/... reinterpretations in `de.rs`). -/
def toSigned (w : Nat) (n : Nat) : Int :=
  if n < 2 ^ (8 * w - 1) then (n : Int) else (n : Int) - 2 ^ (8 * w)

/-- Is `b` a UTF-8 continuation byte (`0x80..=0xBF`)? -/
def isCont (b : Nat) : Bool :=
  decide (0x80 ≤ b) && decide (b ≤ 0xBF)

/-- `str::from_utf8` succeeds exactly on well-formed UTF-8; this is the
standard table of accepted byte ranges. -/
def isValidUtf8 : List Nat → Bool
  | [] => true
  | b :: rest =>
    if b ≤ 0x7F then isValidUtf8 rest
    else if 0xC2 ≤ b && b ≤ 0xDF then
      match rest with
      | c :: r => isCont c && isValidUtf8 r
      | [] => false
    else if b = 0xE0 then
      match rest with
      | c :: d :: r => decide (0xA0 ≤ c) && decide (c ≤ 0xBF) && isCont d && isValidUtf8 r
      | _ => false
    else if (0xE1 ≤ b && b ≤ 0xEC) || b = 0xEE || b = 0xEF then
      match rest with
      | c :: d :: r => isCont c && isCont d && isValidUtf8 r
      | _ => false
    else if b = 0xED then
      match rest with
      | c :: d :: r => decide (0x80 ≤ c) && decide (c ≤ 0x9F) && isCont d && isValidUtf8 r
      | _ => false
    else if b = 0xF0 then
      match rest with
      | c :: d :: f :: r =>
          decide (0x90 ≤ c) && decide (c ≤ 0xBF) && isCont d && isCont f && isValidUtf8 r
      | _ => false
    else if 0xF1 ≤ b && b ≤ 0xF3 then
      match rest with
      | c :: d :: f :: r => isCont c && isCont d && isCont f && isValidUtf8 r
      | _ => false
    else if b = 0xF4 then
      match rest with
      | c :: d :: f :: r =>
          decide (0x80 ≤ c) && decide (c ≤ 0x8F) && isCont d && isCont f && isValidUtf8 r
      | _ => false
    else false

mutual
/-- The byte stream `BinarySerializer` emits for a value, with the
`DefaultBinarySerializerDelegate` and byte order `e`, into a growing
writer (`ser.rs`):

* primitives: fixed-width bytes in the configured order (`serialize_uXX`;
  the signed and boolean entry points forward to the unsigned ones);
* floats: the raw bit pattern (`E::write_f32/f64`);
* char: `encode_char` yields the scalar as `u32`, then `serialize_u32`;
* str/bytes: `serialize_seq(Some(len))` — an `encode_length` (`usize`,
  8 bytes) prefix — then each byte as an element;
* option: `encode_variant(0)`, or `encode_variant(1)` then the payload;
* unit: nothing;
* seq/map with known length: `encode_length` prefix then the elements
  (map: key then value, interleaved);
* tuple/struct: just the fields, no prefix;
* enum variants: `encode_variant(index)` (a `u32`) then the payload. -/
def serValue (e : Endian) : Value → List Nat
  | .bool b => [if b then 1 else 0]
  | .u8 v => [v % 256]
  | .u16 v => writeWord e 2 v
  | .u32 v => writeWord e 4 v
  | .u64 v => writeWord e 8 v
  | .i8 v => [(v % 256).toNat]
  | .i16 v => writeWord e 2 (v % 2 ^ 16).toNat
  | .i32 v => writeWord e 4 (v % 2 ^ 32).toNat
  | .i64 v => writeWord e 8 (v % 2 ^ 64).toNat
  | .f32 bits => writeWord e 4 bits
  | .f64 bits => writeWord e 8 bits
  | .char c => writeWord e 4 c
  | .str bs => writeWord e 8 bs.length ++ bs.map (· % 256)
  | .bytes bs => writeWord e 8 bs.length ++ bs.map (· % 256)
  | .option none => writeWord e 4 0
  | .option (some v) => writeWord e 4 1 ++ serValue e v
  | .unit => []
  | .seq xs => writeWord e 8 xs.length ++ serFields e xs
  | .tuple xs => serFields e xs
  | .map ps => writeWord e 8 ps.length ++ serPairs e ps
  | .enumUnit i => writeWord e 4 i
  | .enumNewtype i v => writeWord e 4 i ++ serValue e v
  | .enumTuple i xs => writeWord e 4 i ++ serFields e xs
  | .enumStruct i xs => writeWord e 4 i ++ serFields e xs

/-- Concatenated encodings of a field/element list (the fold over
`serialize_element` calls). -/
def serFields (e : Endian) : List Value → List Nat
  | [] => []
  | x :: xs => serValue e x ++ serFields e xs

/-- Concatenated encodings of map entries: key then value, interleaved. -/
def serPairs (e : Endian) : List (Value × Value) → List Nat
  | [] => []
  | (k, v) :: ps => serValue e k ++ serValue e v ++ serPairs e ps
end

/-- The decoder's error type: `ErrorAdapter<Either<BinaryDeserializerError,
IoError>, D>` flattened into one sum.  `io` is the transport arm;
`invalidLength` and `unknownVariant` are the `Other`/custom arm raised by
the derived value-model visitor (missing tuple element, variant index out
of range); `panicked` models the `Option::unwrap` in
`MapAccess::next_value_seed`; `outOfFuel` is a modelling artifact standing
for a decoder loop that never returns. -/
inductive DeErr where
  | io (e : IoError)
  | wrongChar (code : Nat)
  | utf8Error
  | unexpectedVariant (t : Nat)
  | notSupported
  | cannotReadBorrowed
  | invalidLength
  | unknownVariant (idx : Nat)
  | panicked
  | outOfFuel
deriving DecidableEq

/-- `usize::max_value()` on the 64-bit platform. -/
def USIZE_MAX : Nat := 2 ^ 64 - 1

/-- One call to `SequenceAccess::next_element_seed` (`de.rs`), with the
element decode abstracted as `f`.  State in: remaining bytes `r` and the
cursor's `len` field.  State out: the optionally decoded element, the new
remaining bytes, and the new `len`.

When `len` is `none` the cursor first reads a `sequence_length_size()`
prefix and decodes it with `decode_sequence_length`, falling back to
`usize::max_value()` on "unknown".  If the resulting count is positive it
is decremented into `len`, then `is()` gates the element decode; a count
of zero reports exhaustion and leaves `len` untouched. -/
def seqPull (H : DeDelegate) (e : Endian) (f : List Nat → Except DeErr (Value × List Nat))
    (r : List Nat) (len : Option Nat) :
    Except DeErr (Option Value × List Nat × Option Nat) :=
  let counted : Except DeErr (Nat × List Nat) :=
    match len with
    | some l => .ok (l, r)
    | none =>
      match sliceIterRead r H.sequenceLengthSize with
      | (.error er, _) => .error (.io er)
      | (.ok bs, r') => .ok ((H.decodeSequenceLength e bs).getD USIZE_MAX, r')
  match counted with
  | .error er => .error er
  | .ok (length, r') =>
    if 0 < length then
      if sliceIterIs r' then
        match f r' with
        | .ok (v, r'') => .ok (some v, r'', some (length - 1))
        | .error er => .error er
      else .ok (none, r', some (length - 1))
    else .ok (none, r', len)

/-- The derived `Visitor::visit_seq` loop for growable sequences: pull
elements until the cursor reports exhaustion.  `fuel` bounds the number of
pulls so the model is total; every use supplies provably sufficient fuel. -/
def seqLoop (H : DeDelegate) (e : Endian) (f : List Nat → Except DeErr (Value × List Nat)) :
    Nat → List Nat → Option Nat → List Value → Except DeErr (List Value × List Nat)
  | 0, _, _, _ => .error .outOfFuel
  | fuel + 1, r, len, acc =>
    match seqPull H e f r len with
    | .error er => .error er
    | .ok (none, r', _) => .ok (acc, r')
    | .ok (some v, r', len') => seqLoop H e f fuel r' len' (acc ++ [v])

/-- The derived `Visitor::visit_map` loop: `next_key_seed` then
`next_value_seed` until the key pull reports exhaustion.  A value pull
that reports exhaustion hits the `Option::unwrap` in
`MapAccess::next_value_seed` and panics. -/
def mapLoop (H : DeDelegate) (e : Endian)
    (fk fv : List Nat → Except DeErr (Value × List Nat)) :
    Nat → List Nat → Option Nat → List (Value × Value) →
      Except DeErr (List (Value × Value) × List Nat)
  | 0, _, _, _ => .error .outOfFuel
  | fuel + 1, r, len, acc =>
    match seqPull H e fk r len with
    | .error er => .error er
    | .ok (none, r', _) => .ok (acc, r')
    | .ok (some k, r₁, len₁) =>
      match seqPull H e fv r₁ len₁ with
      | .error er => .error er
      | .ok (none, _, _) => .error .panicked
      | .ok (some v, r₂, len₂) => mapLoop H e fk fv fuel r₂ len₂ (acc ++ [(k, v)])

mutual
/-- `BinaryDeserializer` over the slice-backed transport: decode one value
of shape `s` off the front of `r`, returning it with the unconsumed tail
(`de.rs`).  For the slice reader `read` never signals "cannot borrow", so
the staged-buffer fallbacks of the source are dead paths here.

* primitives (`primitive!` macro): read the type's width, reinterpret
  (`bool` is `b[0] != 0`; signed kinds are two's-complement);
* char: read `char_size()` bytes, `decode_char`, `WrongChar` on an
  invalid scalar;
* str/bytes: read a `length_size()` prefix, `decode_length`, read that
  many bytes and borrow them (str additionally validates UTF-8);
* option: read `variant_size()` bytes, `decode_variant`; `0` is absent,
  `1` decodes the payload, anything else is `UnexpectedVariant`;
* unit: nothing is read;
* seq/map: a cursor with no known length pulls until exhaustion
  (`SequenceAccess::new`);
* tuple/struct: a cursor with the static arity pulls one element per
  field (`SequenceAccess::new_with_length`); a pull that reports
  exhaustion early surfaces as the derived visitor's invalid-length error;
* enum: the variant index is recursively decoded as a plain `u32`
  (`u32::deserialize(self.split())` — 4 bytes, never `decode_variant`),
  then dispatched by variant form. -/
def deValue (H : DeDelegate) (e : Endian) : Shape → List Nat → Except DeErr (Value × List Nat)
  | .bool, r =>
    match sliceIterRead r 1 with
    | (.error er, _) => .error (.io er)
    | (.ok bs, r') => .ok (.bool (bs.headD 0 != 0), r')
  | .u8, r =>
    match sliceIterRead r 1 with
    | (.error er, _) => .error (.io er)
    | (.ok bs, r') => .ok (.u8 (bs.headD 0), r')
  | .u16, r =>
    match sliceIterRead r 2 with
    | (.error er, _) => .error (.io er)
    | (.ok bs, r') => .ok (.u16 (readWord e 2 bs), r')
  | .u32, r =>
    match sliceIterRead r 4 with
    | (.error er, _) => .error (.io er)
    | (.ok bs, r') => .ok (.u32 (readWord e 4 bs), r')
  | .u64, r =>
    match sliceIterRead r 8 with
    | (.error er, _) => .error (.io er)
    | (.ok bs, r') => .ok (.u64 (readWord e 8 bs), r')
  | .i8, r =>
    match sliceIterRead r 1 with
    | (.error er, _) => .error (.io er)
    | (.ok bs, r') => .ok (.i8 (toSigned 1 (bs.headD 0)), r')
  | .i16, r =>
    match sliceIterRead r 2 with
    | (.error er, _) => .error (.io er)
    | (.ok bs, r') => .ok (.i16 (toSigned 2 (readWord e 2 bs)), r')
  | .i32, r =>
    match sliceIterRead r 4 with
    | (.error er, _) => .error (.io er)
    | (.ok bs, r') => .ok (.i32 (toSigned 4 (readWord e 4 bs)), r')
  | .i64, r =>
    match sliceIterRead r 8 with
    | (.error er, _) => .error (.io er)
    | (.ok bs, r') => .ok (.i64 (toSigned 8 (readWord e 8 bs)), r')
  | .f32, r =>
    match sliceIterRead r 4 with
    | (.error er, _) => .error (.io er)
    | (.ok bs, r') => .ok (.f32 (readWord e 4 bs), r')
  | .f64, r =>
    match sliceIterRead r 8 with
    | (.error er, _) => .error (.io er)
    | (.ok bs, r') => .ok (.f64 (readWord e 8 bs), r')
  | .char, r =>
    match sliceIterRead r H.charSize with
    | (.error er, _) => .error (.io er)
    | (.ok bs, r') =>
      match H.decodeChar e bs with
      | .error code => .error (.wrongChar code)
      | .ok c => .ok (.char c, r')
  | .str, r =>
    match sliceIterRead r H.lengthSize with
    | (.error er, _) => .error (.io er)
    | (.ok bs, r₁) =>
      match sliceIterRead r₁ (H.decodeLength e bs) with
      | (.error er, _) => .error (.io er)
      | (.ok s, r₂) => if isValidUtf8 s then .ok (.str s, r₂) else .error .utf8Error
  | .bytes, r =>
    match sliceIterRead r H.lengthSize with
    | (.error er, _) => .error (.io er)
    | (.ok bs, r₁) =>
      match sliceIterRead r₁ (H.decodeLength e bs) with
      | (.error er, _) => .error (.io er)
      | (.ok s, r₂) => .ok (.bytes s, r₂)
  | .option s, r =>
    match sliceIterRead r H.variantSize with
    | (.error er, _) => .error (.io er)
    | (.ok bs, r') =>
      let t := H.decodeVariant e bs
      if t = 0 then .ok (.option none, r')
      else if t = 1 then
        match deValue H e s r' with
        | .ok (v, r'') => .ok (.option (some v), r'')
        | .error er => .error er
      else .error (.unexpectedVariant t)
  | .unit, r => .ok (.unit, r)
  | .seq s, r =>
    match seqLoop H e (fun r' => deValue H e s r') (r.length + 2) r none [] with
    | .ok (xs, r') => .ok (.seq xs, r')
    | .error er => .error er
  | .tuple ss, r =>
    match deFields H e ss r with
    | .ok (xs, r') => .ok (.tuple xs, r')
    | .error er => .error er
  | .map ks vs, r =>
    match mapLoop H e (fun r' => deValue H e ks r') (fun r' => deValue H e vs r')
        (r.length + 2) r none [] with
    | .ok (ps, r') => .ok (.map ps, r')
    | .error er => .error er
  | .enum vs, r =>
    match sliceIterRead r 4 with
    | (.error er, _) => .error (.io er)
    | (.ok bs, r') => deVariantList H e vs (readWord e 4 bs) (readWord e 4 bs) r'

/-- A bounded cursor (`SequenceAccess::new_with_length`) driven by the
derived tuple/struct visitor: one pull per declared field.  Each pull
first decrements the remaining count, then checks `is()`; an exhausted
transport makes the pull report no element, which the derived visitor
turns into its invalid-length error. -/
def deFields (H : DeDelegate) (e : Endian) :
    List Shape → List Nat → Except DeErr (List Value × List Nat)
  | [], r => .ok ([], r)
  | s :: ss, r =>
    if sliceIterIs r then
      match deValue H e s r with
      | .error er => .error er
      | .ok (v, r₁) =>
        match deFields H e ss r₁ with
        | .error er => .error er
        | .ok (vs, r₂) => .ok (v :: vs, r₂)
    else .error .invalidLength

/-- Walk a variant-shape list down to the dispatched variant: `k` counts
down while `idx` remembers the decoded index.  This composes the derived
identifier visitor (which rejects an out-of-range index) with
`VariantAccess`'s unit/newtype/tuple/struct dispatch. -/
def deVariantList (H : DeDelegate) (e : Endian) :
    List VariantShape → Nat → Nat → List Nat → Except DeErr (Value × List Nat)
  | [], _, idx, _ => .error (.unknownVariant idx)
  | v :: _, 0, idx, r =>
    match v with
    | .unit => .ok (.enumUnit idx, r)
    | .newtype s =>
      match deValue H e s r with
      | .ok (x, r') => .ok (.enumNewtype idx x, r')
      | .error er => .error er
    | .tuple ss =>
      match deFields H e ss r with
      | .ok (xs, r') => .ok (.enumTuple idx xs, r')
      | .error er => .error er
    | .struct ss =>
      match deFields H e ss r with
      | .ok (xs, r') => .ok (.enumStruct idx xs, r')
      | .error er => .error er
  | _ :: vs, k + 1, idx, r => deVariantList H e vs k idx r
end

mutual
/-- Does the encoding of `v` contain at least one byte?  Only `unit` and
tuples all of whose fields are byte-less encode to the empty string. -/
def hasBytes : Value → Bool
  | .unit => false
  | .tuple xs => hasBytesList xs
  | _ => true

/-- Does some element of the list encode to at least one byte? -/
def hasBytesList : List Value → Bool
  | [] => false
  | x :: xs => hasBytes x || hasBytesList xs
end

mutual
/-- Validity of a value for the round-trip statement: integers within
their type's range, float bit patterns within width, chars are Unicode
scalars, strings are valid UTF-8, byte-string bytes in range, list
lengths below `usize::MAX`.  Three situations the decoder cannot invert
are excluded: sequences and maps (the decoder never reads the encoder's
length prefix), empty strings/byte strings (their zero-length payload
read derails the reader), and tuple/struct fields that encode to zero
bytes (the cursor's exhaustion check fires before such a field). -/
def rtOK : Value → Bool
  | .bool _ => true
  | .u8 v => decide (v < 2 ^ 8)
  | .u16 v => decide (v < 2 ^ 16)
  | .u32 v => decide (v < 2 ^ 32)
  | .u64 v => decide (v < 2 ^ 64)
  | .i8 v => decide (-(2 ^ 7) ≤ v) && decide (v < 2 ^ 7)
  | .i16 v => decide (-(2 ^ 15) ≤ v) && decide (v < 2 ^ 15)
  | .i32 v => decide (-(2 ^ 31) ≤ v) && decide (v < 2 ^ 31)
  | .i64 v => decide (-(2 ^ 63) ≤ v) && decide (v < 2 ^ 63)
  | .f32 bits => decide (bits < 2 ^ 32)
  | .f64 bits => decide (bits < 2 ^ 64)
  | .char c => isValidScalar c
  | .str bs =>
    decide (0 < bs.length) && decide (bs.length < 2 ^ 64) &&
      bs.all (fun b => decide (b < 256)) && isValidUtf8 bs
  | .bytes bs =>
    decide (0 < bs.length) && decide (bs.length < 2 ^ 64) && bs.all (fun b => decide (b < 256))
  | .option none => true
  | .option (some v) => rtOK v
  | .unit => true
  | .seq _ => false
  | .map _ => false
  | .tuple xs => rtOKList xs
  | .enumUnit i => decide (i < 2 ^ 32)
  | .enumNewtype i v => decide (i < 2 ^ 32) && rtOK v
  | .enumTuple i xs => decide (i < 2 ^ 32) && rtOKList xs
  | .enumStruct i xs => decide (i < 2 ^ 32) && rtOKList xs

/-- Validity of a field list: every field valid and byte-producing. -/
def rtOKList : List Value → Bool
  | [] => true
  | x :: xs => rtOK x && hasBytes x && rtOKList xs
end

/-- Index into a variant-shape list (`vs[k]?`). -/
def variantAt : List VariantShape → Nat → Option VariantShape
  | [], _ => none
  | v :: _, 0 => some v
  | _ :: vs, k + 1 => variantAt vs k

mutual
/-- Does value `v` fit shape `s`?  This is the link the serde data model
maintains between a Rust value and the `Deserialize` implementation that
will decode it. -/
def hasShape : Value → Shape → Bool
  | .bool _, s => match s with | .bool => true | _ => false
  | .u8 _, s => match s with | .u8 => true | _ => false
  | .u16 _, s => match s with | .u16 => true | _ => false
  | .u32 _, s => match s with | .u32 => true | _ => false
  | .u64 _, s => match s with | .u64 => true | _ => false
  | .i8 _, s => match s with | .i8 => true | _ => false
  | .i16 _, s => match s with | .i16 => true | _ => false
  | .i32 _, s => match s with | .i32 => true | _ => false
  | .i64 _, s => match s with | .i64 => true | _ => false
  | .f32 _, s => match s with | .f32 => true | _ => false
  | .f64 _, s => match s with | .f64 => true | _ => false
  | .char _, s => match s with | .char => true | _ => false
  | .str _, s => match s with | .str => true | _ => false
  | .bytes _, s => match s with | .bytes => true | _ => false
  | .option none, s => match s with | .option _ => true | _ => false
  | .option (some v), s => match s with | .option si => hasShape v si | _ => false
  | .unit, s => match s with | .unit => true | _ => false
  | .seq xs, s => match s with | .seq si => hasShapeSeq xs si | _ => false
  | .tuple xs, s => match s with | .tuple ss => hasShapeList xs ss | _ => false
  | .map ps, s => match s with | .map ks vs => hasShapePairs ps ks vs | _ => false
  | .enumUnit i, s =>
    match s with
    | .enum vs =>
      (match variantAt vs i with
       | some .unit => true
       | _ => false)
    | _ => false
  | .enumNewtype i v, s =>
    match s with
    | .enum vs =>
      (match variantAt vs i with
       | some (.newtype si) => hasShape v si
       | _ => false)
    | _ => false
  | .enumTuple i xs, s =>
    match s with
    | .enum vs =>
      (match variantAt vs i with
       | some (.tuple ss) => hasShapeList xs ss
       | _ => false)
    | _ => false
  | .enumStruct i xs, s =>
    match s with
    | .enum vs =>
      (match variantAt vs i with
       | some (.struct ss) => hasShapeList xs ss
       | _ => false)
    | _ => false

/-- Fields against their declared shapes, positionally. -/
def hasShapeList : List Value → List Shape → Bool
  | [], [] => true
  | x :: xs, s :: ss => hasShape x s && hasShapeList xs ss
  | _, _ => false

/-- Homogeneous sequence elements against the element shape. -/
def hasShapeSeq : List Value → Shape → Bool
  | [], _ => true
  | x :: xs, s => hasShape x s && hasShapeSeq xs s

/-- Map entries against the key and value shapes. -/
def hasShapePairs : List (Value × Value) → Shape → Shape → Bool
  | [], _, _ => true
  | (k, v) :: ps, ks, vs => hasShape k ks && hasShape v vs && hasShapePairs ps ks vs
end

mutual
/-- Structural weight of a value, used as the induction measure for the
round-trip proof. -/
def vsize : Value → Nat
  | .option (some v) => vsize v + 1
  | .seq xs => vsizeList xs + 1
  | .tuple xs => vsizeList xs + 1
  | .map ps => vsizePairs ps + 1
  | .enumNewtype _ v => vsize v + 1
  | .enumTuple _ xs => vsizeList xs + 1
  | .enumStruct _ xs => vsizeList xs + 1
  | _ => 1

/-- Weight of a value list. -/
def vsizeList : List Value → Nat
  | [] => 0
  | x :: xs => vsize x + vsizeList xs + 1

/-- Weight of a pair list. -/
def vsizePairs : List (Value × Value) → Nat
  | [] => 0
  | (k, v) :: ps => vsize k + vsize v + vsizePairs ps + 1
end


/-- Iterate `SequenceAccess::next_element_seed`, counting how many pulls
yield an element before one reports exhaustion (`fuel` bounds the pulls);
returns the count with the final reader state and remaining-length field. -/
def countPulls (H : DeDelegate) (e : Endian) (f : List Nat → Except DeErr (Value × List Nat)) :
    Nat → List Nat → Option Nat → Except DeErr (Nat × List Nat × Option Nat)
  | 0, _, _ => .error .outOfFuel
  | fuel + 1, r, len =>
    match seqPull H e f r len with
    | .error er => .error er
    | .ok (none, r', len') => .ok (0, r', len')
    | .ok (some _, r', len') =>
      match countPulls H e f fuel r' len' with
      | .error er => .error er
      | .ok (k, st) => .ok (k + 1, st)

/-! ## Facts about the wire words -/

theorem writeBytesLE_length (w n : Nat) : (writeBytesLE w n).length = w := by
  induction w generalizing n with
  | zero => rfl
  | succ w ih => simp [writeBytesLE, ih]

theorem writeWord_length (e : Endian) (w n : Nat) : (writeWord e w n).length = w := by
  cases e <;> simp [writeWord, writeBytesLE_length]

theorem readBytesLE_writeBytesLE (w n : Nat) :
    readBytesLE (writeBytesLE w n) = n % 2 ^ (8 * w) := by
  induction w generalizing n with
  | zero => simp [writeBytesLE, readBytesLE, Nat.mod_one]
  | succ w ih =>
      have hpow : (2:Nat) ^ (8 * (w + 1)) = 256 * 2 ^ (8 * w) := by
        rw [show 8 * (w + 1) = 8 + 8 * w by ring, pow_add]
        norm_num
      set M := (2:Nat) ^ (8 * w) with hM
      have hMpos : 0 < M := Nat.pos_pow_of_pos _ (by norm_num)
      rw [writeBytesLE, readBytesLE, ih, hpow]
      have key : n % 256 + 256 * (n / 256 % M) + 256 * M * (n / 256 / M) = n := by
        have h1 : n / 256 % M + M * (n / 256 / M) = n / 256 := Nat.mod_add_div _ _
        have h2 : n % 256 + 256 * (n / 256) = n := Nat.mod_add_div n 256
        calc n % 256 + 256 * (n / 256 % M) + 256 * M * (n / 256 / M)
            = n % 256 + 256 * (n / 256 % M + M * (n / 256 / M)) := by ring
          _ = n := by rw [h1]; exact h2
      conv_rhs => rw [← key]
      rw [Nat.add_mul_mod_self_left]
      have ha : n % 256 < 256 := Nat.mod_lt _ (by norm_num)
      have hr : n / 256 % M < M := Nat.mod_lt _ hMpos
      exact (Nat.mod_eq_of_lt (by nlinarith)).symm

theorem readWord_writeWord (e : Endian) (w n : Nat) :
    readWord e w (writeWord e w n) = n % 2 ^ (8 * w) := by
  cases e with
  | little =>
      rw [readWord, writeWord, List.take_of_length_le (by rw [writeBytesLE_length])]
      exact readBytesLE_writeBytesLE w n
  | big =>
      rw [readWord, writeWord,
        List.take_of_length_le (by rw [List.length_reverse, writeBytesLE_length]),
        List.reverse_reverse]
      exact readBytesLE_writeBytesLE w n

theorem readWord_writeWord_append (e : Endian) (w n : Nat) (rest : List Nat) :
    readWord e w (writeWord e w n ++ rest) = n % 2 ^ (8 * w) := by
  have hlen : (writeWord e w n).length = w := writeWord_length e w n
  have htake : (writeWord e w n ++ rest).take w = writeWord e w n := by
    rw [List.take_append_of_le_length (by omega), List.take_of_length_le (by omega)]
  cases e with
  | little => rw [readWord, htake, ← readWord_writeWord .little w n, readWord,
      List.take_of_length_le (by omega)]
  | big => rw [readWord, htake, ← readWord_writeWord .big w n, readWord,
      List.take_of_length_le (by omega)]

/-! ## Elementary facts about the transport and the wire words -/

theorem writeWord_ne_nil (e : Endian) {w : Nat} (n : Nat) (hw : 0 < w) :
    writeWord e w n ≠ [] := by
  intro h
  have := writeWord_length e w n
  rw [h] at this
  simp at this
  omega

theorem ne_nil_append_left {a b : List Nat} (h : a ≠ []) : a ++ b ≠ [] := by
  intro hab
  exact h (List.append_eq_nil.mp hab).1

/-- A satisfiable read of positive width consumes exactly the requested
bytes off the front. -/
theorem sliceIterRead_exact {w : Nat} (hw : 0 < w) (bs rest : List Nat)
    (hlen : bs.length = w) :
    sliceIterRead (bs ++ rest) w = (.ok bs, rest) := by
  unfold sliceIterRead
  rw [if_neg (by simp; omega), if_neg (by omega)]
  rw [List.take_left' hlen, List.drop_left' hlen]

theorem sliceIterRead_word (e : Endian) {w : Nat} (hw : 0 < w) (n : Nat) (rest : List Nat) :
    sliceIterRead (writeWord e w n ++ rest) w = (.ok (writeWord e w n), rest) :=
  sliceIterRead_exact hw _ rest (writeWord_length e w n)

theorem map_mod_id : ∀ (bs : List Nat),
    bs.all (fun b => decide (b < 256)) = true → bs.map (· % 256) = bs
  | [], _ => rfl
  | b :: bs, h => by
    rw [List.all_cons, Bool.and_eq_true, decide_eq_true_eq] at h
    rw [List.map_cons, Nat.mod_eq_of_lt h.1, map_mod_id bs h.2]

/-- Two's-complement reinterpretation inverts the encoder-side cast for
any in-range signed value. -/
theorem toSigned_emod (w : Nat) (hw : 0 < w) (v : Int)
    (h1 : -(2 ^ (8 * w - 1) : Int) ≤ v) (h2 : v < (2 ^ (8 * w - 1) : Int)) :
    toSigned w ((v % (2 ^ (8 * w) : Int)).toNat) = v := by
  have hexp : 8 * w - 1 + 1 = 8 * w := by omega
  have hsplitI : (2 : Int) ^ (8 * w) = 2 * 2 ^ (8 * w - 1) := by
    rw [← pow_succ']
    rw [hexp]
  have hsplitN : (2 : Nat) ^ (8 * w) = 2 * 2 ^ (8 * w - 1) := by
    rw [← pow_succ']
    rw [hexp]
  have hcastH : ((2 ^ (8 * w - 1) : Nat) : Int) = 2 ^ (8 * w - 1) := by push_cast; ring
  have hHpos : (0 : Int) < 2 ^ (8 * w - 1) := by positivity
  have hmod : v % (2 ^ (8 * w) : Int) = if 0 ≤ v then v else v + 2 ^ (8 * w) := by
    by_cases h0 : 0 ≤ v
    · rw [if_pos h0]
      exact Int.emod_eq_of_lt h0 (by rw [hsplitI]; omega)
    · rw [if_neg h0]
      have hst := Int.add_mul_emod_self_left (a := v) (b := (2 : Int) ^ (8 * w)) (c := 1)
      rw [mul_one] at hst
      rw [← hst]
      exact Int.emod_eq_of_lt (by rw [hsplitI] at *; omega) (by rw [hsplitI] at *; omega)
  rw [hmod]
  unfold toSigned
  by_cases h0 : 0 ≤ v
  · rw [if_pos h0, if_pos (by omega)]
    omega
  · rw [if_neg h0, if_neg (by rw [hsplitI] at *; omega)]
    rw [hsplitI] at *
    omega

/-- Variant dispatch only looks at the indexed variant shape. -/
theorem deVariantList_congr (H : DeDelegate) (e : Endian) (vs : List VariantShape) :
    ∀ (k idx : Nat) (r : List Nat) (var : VariantShape),
      variantAt vs k = some var →
      deVariantList H e vs k idx r = deVariantList H e [var] 0 idx r := by
  induction vs with
  | nil =>
    intro k idx r var h
    simp [variantAt] at h
  | cons v vs ih =>
    intro k idx r var h
    cases k with
    | zero =>
      rw [variantAt, Option.some.injEq] at h
      cases v <;> cases var <;> simp_all <;> rfl
    | succ k =>
      rw [variantAt] at h
      rw [show deVariantList H e (v :: vs) (k + 1) idx r = deVariantList H e vs k idx r from rfl]
      exact ih k idx r var h
/-! ## The encoding of a byte-producing value is nonempty -/

mutual
theorem serValue_ne_nil : ∀ (e : Endian) (v : Value), hasBytes v = true → serValue e v ≠ []
  | e, .bool b, _ => by simp [serValue]
  | e, .u8 v, _ => by simp [serValue]
  | e, .u16 v, _ => by simpa [serValue] using writeWord_ne_nil (w := 2) e v (by norm_num)
  | e, .u32 v, _ => by simpa [serValue] using writeWord_ne_nil (w := 4) e v (by norm_num)
  | e, .u64 v, _ => by simpa [serValue] using writeWord_ne_nil (w := 8) e v (by norm_num)
  | e, .i8 v, _ => by simp [serValue]
  | e, .i16 v, _ => by simpa [serValue] using writeWord_ne_nil (w := 2) e _ (by norm_num)
  | e, .i32 v, _ => by simpa [serValue] using writeWord_ne_nil (w := 4) e _ (by norm_num)
  | e, .i64 v, _ => by simpa [serValue] using writeWord_ne_nil (w := 8) e _ (by norm_num)
  | e, .f32 v, _ => by simpa [serValue] using writeWord_ne_nil (w := 4) e _ (by norm_num)
  | e, .f64 v, _ => by simpa [serValue] using writeWord_ne_nil (w := 8) e _ (by norm_num)
  | e, .char c, _ => by simpa [serValue] using writeWord_ne_nil (w := 4) e _ (by norm_num)
  | e, .str bs, _ => by
    simp only [serValue]
    exact ne_nil_append_left (writeWord_ne_nil (w := 8) e _ (by norm_num))
  | e, .bytes bs, _ => by
    simp only [serValue]
    exact ne_nil_append_left (writeWord_ne_nil (w := 8) e _ (by norm_num))
  | e, .option none, _ => by
    simpa [serValue] using writeWord_ne_nil (w := 4) e _ (by norm_num)
  | e, .option (some v), _ => by
    simp only [serValue]
    exact ne_nil_append_left (writeWord_ne_nil (w := 4) e _ (by norm_num))
  | e, .unit, h => by simp [hasBytes] at h
  | e, .seq xs, _ => by
    simp only [serValue]
    exact ne_nil_append_left (writeWord_ne_nil (w := 8) e _ (by norm_num))
  | e, .map ps, _ => by
    simp only [serValue]
    exact ne_nil_append_left (writeWord_ne_nil (w := 8) e _ (by norm_num))
  | e, .tuple xs, h => by
    simp only [hasBytes] at h
    simp only [serValue]
    exact serFields_ne_nil e xs h
  | e, .enumUnit i, _ => by
    simpa [serValue] using writeWord_ne_nil (w := 4) e _ (by norm_num)
  | e, .enumNewtype i v, _ => by
    simp only [serValue]
    exact ne_nil_append_left (writeWord_ne_nil (w := 4) e _ (by norm_num))
  | e, .enumTuple i xs, _ => by
    simp only [serValue]
    exact ne_nil_append_left (writeWord_ne_nil (w := 4) e _ (by norm_num))
  | e, .enumStruct i xs, _ => by
    simp only [serValue]
    exact ne_nil_append_left (writeWord_ne_nil (w := 4) e _ (by norm_num))

theorem serFields_ne_nil : ∀ (e : Endian) (xs : List Value),
    hasBytesList xs = true → serFields e xs ≠ []
  | e, [], h => by simp [hasBytesList] at h
  | e, x :: xs, h => by
    simp only [hasBytesList, Bool.or_eq_true] at h
    simp only [serFields]
    rcases h with h | h
    · exact ne_nil_append_left (serValue_ne_nil e x h)
    · intro hc
      exact serFields_ne_nil e xs h (List.append_eq_nil.mp hc).2
end

/-! ## The round-trip induction -/

theorem dd_variantSize : defaultDelegate.variantSize = 4 := rfl

theorem dd_lengthSize : defaultDelegate.lengthSize = 8 := rfl

theorem dd_sequenceLengthSize : defaultDelegate.sequenceLengthSize = 0 := rfl

theorem dd_charSize : defaultDelegate.charSize = 4 := rfl

theorem dd_decodeVariant (e : Endian) (bs : List Nat) :
    defaultDelegate.decodeVariant e bs = readWord e 4 bs := rfl

theorem dd_decodeLength (e : Endian) (bs : List Nat) :
    defaultDelegate.decodeLength e bs = readWord e 8 bs := rfl

theorem dd_decodeSequenceLength (e : Endian) (bs : List Nat) :
    defaultDelegate.decodeSequenceLength e bs = none := rfl

theorem dd_decodeChar (e : Endian) (bs : List Nat) :
    defaultDelegate.decodeChar e bs =
      (if isValidScalar (readWord e 4 bs) then .ok (readWord e 4 bs)
       else .error (readWord e 4 bs)) := rfl

theorem sliceIterRead_one (x : Nat) (rest : List Nat) :
    sliceIterRead (x :: rest) 1 = (.ok [x], rest) := by
  unfold sliceIterRead
  simp

theorem sliceIterIs_append_left {a b : List Nat} (h : a ≠ []) : sliceIterIs (a ++ b) = true := by
  cases a with
  | nil => exact absurd rfl h
  | cons y ys => simp [sliceIterIs]

theorem toSigned_roundtrip (w : Nat) (hw : 0 < w) (v : Int)
    (h1 : -(2 ^ (8 * w - 1) : Int) ≤ v) (h2 : v < (2 ^ (8 * w - 1) : Int)) :
    toSigned w ((v % (2 ^ (8 * w) : Int)).toNat % 2 ^ (8 * w)) = v := by
  have hWpos : (0 : Int) < 2 ^ (8 * w) := by positivity
  have hb : v % (2 ^ (8 * w) : Int) < 2 ^ (8 * w) := Int.emod_lt_of_pos v hWpos
  have hnn : (0 : Int) ≤ v % (2 ^ (8 * w) : Int) := Int.emod_nonneg v (by positivity)
  have hcast : ((2 ^ (8 * w) : Nat) : Int) = 2 ^ (8 * w) := by push_cast; ring
  rw [Nat.mod_eq_of_lt (by omega)]
  exact toSigned_emod w hw v h1 h2

theorem toSigned_rt_one (v : Int) (hlo : -(2 ^ 7 : Int) ≤ v) (hhi : v < (2 ^ 7 : Int)) :
    toSigned 1 ((v % (256 : Int)).toNat) = v := by
  have h := toSigned_emod 1 (by norm_num) v (by norm_num at hlo ⊢; omega) (by norm_num at hhi ⊢; omega)
  norm_num at h ⊢
  exact h

theorem toSigned_rt_two (v : Int) (hlo : -(2 ^ 15 : Int) ≤ v) (hhi : v < (2 ^ 15 : Int)) :
    toSigned 2 ((v % (2 ^ 16 : Int)).toNat % 2 ^ (8 * 2)) = v := by
  have h := toSigned_roundtrip 2 (by norm_num) v (by norm_num at hlo ⊢; omega) (by norm_num at hhi ⊢; omega)
  norm_num at h ⊢
  exact h

theorem toSigned_rt_four (v : Int) (hlo : -(2 ^ 31 : Int) ≤ v) (hhi : v < (2 ^ 31 : Int)) :
    toSigned 4 ((v % (2 ^ 32 : Int)).toNat % 2 ^ (8 * 4)) = v := by
  have h := toSigned_roundtrip 4 (by norm_num) v (by norm_num at hlo ⊢; omega) (by norm_num at hhi ⊢; omega)
  norm_num at h ⊢
  exact h

theorem toSigned_rt_eight (v : Int) (hlo : -(2 ^ 63 : Int) ≤ v) (hhi : v < (2 ^ 63 : Int)) :
    toSigned 8 ((v % (2 ^ 64 : Int)).toNat % 2 ^ (8 * 8)) = v := by
  have h := toSigned_roundtrip 8 (by norm_num) v (by norm_num at hlo ⊢; omega) (by norm_num at hhi ⊢; omega)
  norm_num at h ⊢
  exact h

theorem vsize_pos : ∀ (v : Value), 0 < vsize v := by
  intro v
  cases v with
  | option o => cases o <;> simp [vsize]
  | _ => simp [vsize]

theorem rt_aux : ∀ (n : Nat) (e : Endian) (v : Value) (s : Shape) (rest : List Nat),
    vsize v ≤ n → rtOK v = true → hasShape v s = true →
    deValue defaultDelegate e s (serValue e v ++ rest) = .ok (v, rest) := by
  intro n
  induction n with
  | zero =>
    intro e v s rest hsz h1 h2
    have := vsize_pos v
    omega
  | succ n ih =>
    have ihF : ∀ (xs : List Value) (ss : List Shape) (rest : List Nat) (e : Endian),
        vsizeList xs ≤ n + 1 → rtOKList xs = true → hasShapeList xs ss = true →
        deFields defaultDelegate e ss (serFields e xs ++ rest) = .ok (xs, rest) := by
      intro xs
      induction xs with
      | nil =>
        intro ss rest e _ h1 h2
        cases ss with
        | nil => simp [serFields, deFields]
        | cons s ss => simp [hasShapeList] at h2
      | cons x xs ihL =>
        intro ss rest e hsz h1 h2
        cases ss with
        | nil => simp [hasShapeList] at h2
        | cons s ss =>
          simp only [rtOKList, Bool.and_eq_true] at h1
          simp only [hasShapeList, Bool.and_eq_true] at h2
          obtain ⟨⟨hx, hb⟩, hxs⟩ := h1
          obtain ⟨hs, hss⟩ := h2
          have hne : serValue e x ≠ [] := serValue_ne_nil e x hb
          have hszx : vsize x ≤ n := by simp only [vsizeList] at hsz; omega
          have hszxs : vsizeList xs ≤ n + 1 := by simp only [vsizeList] at hsz; omega
          simp only [serFields, List.append_assoc, deFields]
          rw [if_pos (sliceIterIs_append_left hne)]
          simp only [ih e x s (serFields e xs ++ rest) hszx hx hs,
            ihL ss rest e hszxs hxs hss]
    intro e v s rest hsz h1 h2
    cases v with
    | bool b =>
      cases s <;> simp only [hasShape] at h2 <;> try exact absurd h2 Bool.false_ne_true
      simp only [serValue, List.cons_append, List.nil_append, deValue, sliceIterRead_one]
      cases b <;> norm_num
    | u8 v =>
      cases s <;> simp only [hasShape] at h2 <;> try exact absurd h2 Bool.false_ne_true
      simp only [rtOK, decide_eq_true_eq] at h1
      simp only [serValue, List.cons_append, List.nil_append, deValue, sliceIterRead_one]
      norm_num at h1
      simp [Nat.mod_eq_of_lt h1]
    | u16 v =>
      cases s <;> simp only [hasShape] at h2 <;> try exact absurd h2 Bool.false_ne_true
      simp only [rtOK, decide_eq_true_eq] at h1
      simp only [serValue, deValue,
        sliceIterRead_word e (show (0:Nat) < 2 by norm_num) v rest, readWord_writeWord]
      rw [Nat.mod_eq_of_lt (by norm_num at h1 ⊢; omega)]
    | u32 v =>
      cases s <;> simp only [hasShape] at h2 <;> try exact absurd h2 Bool.false_ne_true
      simp only [rtOK, decide_eq_true_eq] at h1
      simp only [serValue, deValue,
        sliceIterRead_word e (show (0:Nat) < 4 by norm_num) v rest, readWord_writeWord]
      rw [Nat.mod_eq_of_lt (by norm_num at h1 ⊢; omega)]
    | u64 v =>
      cases s <;> simp only [hasShape] at h2 <;> try exact absurd h2 Bool.false_ne_true
      simp only [rtOK, decide_eq_true_eq] at h1
      simp only [serValue, deValue,
        sliceIterRead_word e (show (0:Nat) < 8 by norm_num) v rest, readWord_writeWord]
      rw [Nat.mod_eq_of_lt (by norm_num at h1 ⊢; omega)]
    | i8 v =>
      cases s <;> simp only [hasShape] at h2 <;> try exact absurd h2 Bool.false_ne_true
      simp only [rtOK, Bool.and_eq_true, decide_eq_true_eq] at h1
      simp only [serValue, List.cons_append, List.nil_append, deValue, sliceIterRead_one]
      simp [toSigned_rt_one v (by norm_num; omega) (by norm_num; omega)]
    | i16 v =>
      cases s <;> simp only [hasShape] at h2 <;> try exact absurd h2 Bool.false_ne_true
      simp only [rtOK, Bool.and_eq_true, decide_eq_true_eq] at h1
      simp only [serValue, deValue,
        sliceIterRead_word e (show (0:Nat) < 2 by norm_num) _ rest, readWord_writeWord]
      rw [toSigned_rt_two v (by norm_num; omega) (by norm_num; omega)]
    | i32 v =>
      cases s <;> simp only [hasShape] at h2 <;> try exact absurd h2 Bool.false_ne_true
      simp only [rtOK, Bool.and_eq_true, decide_eq_true_eq] at h1
      simp only [serValue, deValue,
        sliceIterRead_word e (show (0:Nat) < 4 by norm_num) _ rest, readWord_writeWord]
      rw [toSigned_rt_four v (by norm_num; omega) (by norm_num; omega)]
    | i64 v =>
      cases s <;> simp only [hasShape] at h2 <;> try exact absurd h2 Bool.false_ne_true
      simp only [rtOK, Bool.and_eq_true, decide_eq_true_eq] at h1
      simp only [serValue, deValue,
        sliceIterRead_word e (show (0:Nat) < 8 by norm_num) _ rest, readWord_writeWord]
      rw [toSigned_rt_eight v (by norm_num; omega) (by norm_num; omega)]
    | f32 v =>
      cases s <;> simp only [hasShape] at h2 <;> try exact absurd h2 Bool.false_ne_true
      simp only [rtOK, decide_eq_true_eq] at h1
      simp only [serValue, deValue,
        sliceIterRead_word e (show (0:Nat) < 4 by norm_num) v rest, readWord_writeWord]
      rw [Nat.mod_eq_of_lt (by norm_num at h1 ⊢; omega)]
    | f64 v =>
      cases s <;> simp only [hasShape] at h2 <;> try exact absurd h2 Bool.false_ne_true
      simp only [rtOK, decide_eq_true_eq] at h1
      simp only [serValue, deValue,
        sliceIterRead_word e (show (0:Nat) < 8 by norm_num) v rest, readWord_writeWord]
      rw [Nat.mod_eq_of_lt (by norm_num at h1 ⊢; omega)]
    | char c =>
      cases s <;> simp only [hasShape] at h2 <;> try exact absurd h2 Bool.false_ne_true
      simp only [rtOK] at h1
      have hc : c < 2 ^ (8 * 4) := by
        simp only [isValidScalar, Bool.and_eq_true, decide_eq_true_eq] at h1
        norm_num
        omega
      simp only [serValue, deValue, dd_charSize, dd_decodeChar,
        sliceIterRead_word e (show (0:Nat) < 4 by norm_num) c rest, readWord_writeWord,
        Nat.mod_eq_of_lt hc, h1]
      simp
    | str bs =>
      cases s <;> simp only [hasShape] at h2 <;> try exact absurd h2 Bool.false_ne_true
      simp only [rtOK, Bool.and_eq_true, decide_eq_true_eq] at h1
      obtain ⟨⟨⟨hpos, hlen⟩, hbytes⟩, hutf⟩ := h1
      simp only [serValue, List.append_assoc, deValue, dd_lengthSize, dd_decodeLength,
        sliceIterRead_word e (show (0:Nat) < 8 by norm_num) bs.length (bs.map (· % 256) ++ rest),
        readWord_writeWord,
        Nat.mod_eq_of_lt (show bs.length < 2 ^ (8 * 8) by norm_num at hlen ⊢; omega)]
      rw [sliceIterRead_exact hpos (bs.map (· % 256)) rest (by simp)]
      rw [map_mod_id bs hbytes]
      simp [hutf]
    | bytes bs =>
      cases s <;> simp only [hasShape] at h2 <;> try exact absurd h2 Bool.false_ne_true
      simp only [rtOK, Bool.and_eq_true, decide_eq_true_eq] at h1
      obtain ⟨⟨hpos, hlen⟩, hbytes⟩ := h1
      simp only [serValue, List.append_assoc, deValue, dd_lengthSize, dd_decodeLength,
        sliceIterRead_word e (show (0:Nat) < 8 by norm_num) bs.length (bs.map (· % 256) ++ rest),
        readWord_writeWord,
        Nat.mod_eq_of_lt (show bs.length < 2 ^ (8 * 8) by norm_num at hlen ⊢; omega)]
      rw [sliceIterRead_exact hpos (bs.map (· % 256)) rest (by simp)]
      rw [map_mod_id bs hbytes]
    | option o =>
      cases o with
      | none =>
        cases s <;> simp only [hasShape] at h2 <;> try exact absurd h2 Bool.false_ne_true
        simp only [serValue, deValue, dd_variantSize, dd_decodeVariant,
          sliceIterRead_word e (show (0:Nat) < 4 by norm_num) 0 rest, readWord_writeWord]
        norm_num
      | some v =>
        cases s <;> simp only [hasShape] at h2 <;> try exact absurd h2 Bool.false_ne_true
        rename_i s
        · simp only [rtOK] at h1
          have hszv : vsize v ≤ n := by simp only [vsize] at hsz; omega
          simp only [serValue, List.append_assoc, deValue, dd_variantSize, dd_decodeVariant,
            sliceIterRead_word e (show (0:Nat) < 4 by norm_num) 1 (serValue e v ++ rest),
            readWord_writeWord]
          rw [show (1 : Nat) % 2 ^ (8 * 4) = 1 by norm_num]
          simp only [ih e v s rest hszv h1 h2]
          norm_num
    | unit =>
      cases s <;> simp only [hasShape] at h2 <;> try exact absurd h2 Bool.false_ne_true
      simp [serValue, deValue]
    | seq xs => simp [rtOK] at h1
    | map ps => simp [rtOK] at h1
    | tuple xs =>
      cases s <;> simp only [hasShape] at h2 <;> try exact absurd h2 Bool.false_ne_true
      rename_i ss
      · simp only [rtOK] at h1
        have hszxs : vsizeList xs ≤ n + 1 := by simp only [vsize] at hsz; omega
        simp only [serValue, deValue]
        rw [ihF xs ss rest e hszxs h1 h2]
    | enumUnit i =>
      cases s <;> simp only [hasShape] at h2 <;> try exact absurd h2 Bool.false_ne_true
      rename_i vs
      · simp only [rtOK, decide_eq_true_eq] at h1
        rcases hvar : variantAt vs i with _ | var
        · rw [hvar] at h2
          simp at h2
        · rw [hvar] at h2
          cases var <;> simp at h2
          simp only [serValue, deValue,
            sliceIterRead_word e (show (0:Nat) < 4 by norm_num) i rest, readWord_writeWord,
            Nat.mod_eq_of_lt (show i < 2 ^ (8 * 4) by norm_num at h1 ⊢; omega)]
          rw [deVariantList_congr defaultDelegate e vs i i rest .unit hvar]
          rfl
    | enumNewtype i v =>
      cases s <;> simp only [hasShape] at h2 <;> try exact absurd h2 Bool.false_ne_true
      rename_i vs
      · simp only [rtOK, Bool.and_eq_true, decide_eq_true_eq] at h1
        rcases hvar : variantAt vs i with _ | var
        · rw [hvar] at h2
          simp at h2
        · rw [hvar] at h2
          cases var with
          | unit => simp at h2
          | tuple ss => simp at h2
          | struct ss => simp at h2
          | newtype si =>
            simp only at h2
            have hszv : vsize v ≤ n := by simp only [vsize] at hsz; omega
            simp only [serValue, List.append_assoc, deValue,
              sliceIterRead_word e (show (0:Nat) < 4 by norm_num) i (serValue e v ++ rest),
              readWord_writeWord,
              Nat.mod_eq_of_lt (show i < 2 ^ (8 * 4) by norm_num at h1 ⊢; omega)]
            rw [deVariantList_congr defaultDelegate e vs i i _ (.newtype si) hvar]
            simp only [deVariantList]
            rw [ih e v si rest hszv h1.2 h2]
    | enumTuple i xs =>
      cases s <;> simp only [hasShape] at h2 <;> try exact absurd h2 Bool.false_ne_true
      rename_i vs
      · simp only [rtOK, Bool.and_eq_true, decide_eq_true_eq] at h1
        rcases hvar : variantAt vs i with _ | var
        · rw [hvar] at h2
          simp at h2
        · rw [hvar] at h2
          cases var with
          | unit => simp at h2
          | newtype si => simp at h2
          | struct ss => simp at h2
          | tuple ss =>
            simp only at h2
            have hszxs : vsizeList xs ≤ n + 1 := by simp only [vsize] at hsz; omega
            simp only [serValue, List.append_assoc, deValue,
              sliceIterRead_word e (show (0:Nat) < 4 by norm_num) i (serFields e xs ++ rest),
              readWord_writeWord,
              Nat.mod_eq_of_lt (show i < 2 ^ (8 * 4) by norm_num at h1 ⊢; omega)]
            rw [deVariantList_congr defaultDelegate e vs i i _ (.tuple ss) hvar]
            simp only [deVariantList]
            rw [ihF xs ss rest e hszxs h1.2 h2]
    | enumStruct i xs =>
      cases s <;> simp only [hasShape] at h2 <;> try exact absurd h2 Bool.false_ne_true
      rename_i vs
      · simp only [rtOK, Bool.and_eq_true, decide_eq_true_eq] at h1
        rcases hvar : variantAt vs i with _ | var
        · rw [hvar] at h2
          simp at h2
        · rw [hvar] at h2
          cases var with
          | unit => simp at h2
          | newtype si => simp at h2
          | tuple ss => simp at h2
          | struct ss =>
            simp only at h2
            have hszxs : vsizeList xs ≤ n + 1 := by simp only [vsize] at hsz; omega
            simp only [serValue, List.append_assoc, deValue,
              sliceIterRead_word e (show (0:Nat) < 4 by norm_num) i (serFields e xs ++ rest),
              readWord_writeWord,
              Nat.mod_eq_of_lt (show i < 2 ^ (8 * 4) by norm_num at h1 ⊢; omega)]
            rw [deVariantList_congr defaultDelegate e vs i i _ (.struct ss) hvar]
            simp only [deVariantList]
            rw [ihF xs ss rest e hszxs h1.2 h2]

/-- Round-trip over the decodable fragment: a valid value whose shape the
value model declares decodes back from its own encoding, leaving any
trailing bytes untouched. -/
theorem deValue_serValue (e : Endian) (v : Value) (s : Shape) (rest : List Nat)
    (h1 : rtOK v = true) (h2 : hasShape v s = true) :
    deValue defaultDelegate e s (serValue e v ++ rest) = .ok (v, rest) :=
  rt_aux (vsize v) e v s rest le_rfl h1 h2

/-! ## Claim theorems -/

theorem sliceIterRead_take_drop (r : List Nat) (n : Nat) (hn : n ≠ 0) (hle : n ≤ r.length) :
    sliceIterRead r n = (.ok (r.take n), r.drop n) := by
  unfold sliceIterRead
  rw [if_neg (by omega), if_neg hn]

theorem sliceIterIs_of_ne_nil {r : List Nat} (h : r ≠ []) : sliceIterIs r = true := by
  cases r with
  | nil => exact absurd rfl h
  | cons a l => simp [sliceIterIs]

/-- C2: for the fixed-capacity slice-backed writer, a write larger than the
remaining capacity fails with the capacity error and leaves the buffer and
cursor untouched; a write that exactly fills the remaining capacity copies
the bytes after the cursor and advances it; but — against the claim — a
write strictly smaller than the remaining capacity does not succeed: the
source's `copy_from_slice` is applied to the whole remaining window and
panics on the length mismatch, as the concrete instance
`sliceIterMutWrite [0, 0] 0 [7]` shows. -/
theorem write_capacity_behaviour (buf : List Nat) (pos : Nat) (bytes : List Nat) :
    (buf.length - pos < bytes.length →
      sliceIterMutWrite buf pos bytes = .err ⟨buf.length - pos, bytes.length⟩ buf pos) ∧
    (buf.length - pos = bytes.length →
      sliceIterMutWrite buf pos bytes = .ok (buf.take pos ++ bytes) (pos + bytes.length)) ∧
    (bytes.length < buf.length - pos → sliceIterMutWrite buf pos bytes = .panicked) ∧
    sliceIterMutWrite [0, 0] 0 [7] = .panicked := by
  refine ⟨?_, ?_, ?_, by decide⟩
  · intro h
    unfold sliceIterMutWrite
    rw [if_pos h]
  · intro h
    unfold sliceIterMutWrite
    rw [if_neg (by omega)]
    unfold copyFromSlice
    rw [if_pos (by simp [List.length_drop]; omega)]
  · intro h
    unfold sliceIterMutWrite
    rw [if_neg (by omega)]
    unfold copyFromSlice
    rw [if_neg (by simp [List.length_drop]; omega)]

theorem write_capacity_behaviour_witness :
    sliceIterMutWrite [9, 9, 9] 1 [4, 5, 6] = .err ⟨2, 3⟩ [9, 9, 9] 1 ∧
    sliceIterMutWrite [9, 9, 9] 1 [4, 5] = .ok [9, 4, 5] 3 ∧
    sliceIterMutWrite [9, 9, 9] 1 [4] = .panicked :=
  ⟨(write_capacity_behaviour [9, 9, 9] 1 [4, 5, 6]).1 (by decide),
   (write_capacity_behaviour [9, 9, 9] 1 [4, 5]).2.1 (by decide),
   (write_capacity_behaviour [9, 9, 9] 1 [4]).2.2.1 (by decide)⟩

/-- C7: a slice-reader read of more bytes than remain fails with the
insufficient-data error carrying the missing range and leaves the position
unchanged; a satisfiable read of positive length returns exactly the next
`n` bytes and advances past them.  The zero-length read, however, succeeds
while relocating the position to the end of the input (the `nth(0 - 1)`
wrap-around; a debug build panics there instead), as the concrete instance
`sliceIterRead [5] 0` shows. -/
theorem read_boundary_behaviour (r : List Nat) (n : Nat) :
    (r.length < n → sliceIterRead r n = (.error ⟨r.length, n⟩, r)) ∧
    (0 < n → n ≤ r.length → sliceIterRead r n = (.ok (r.take n), r.drop n)) ∧
    sliceIterRead [5] 0 = (.ok [], []) := by
  refine ⟨?_, ?_, rfl⟩
  · intro h
    unfold sliceIterRead
    rw [if_pos h]
  · intro h1 h2
    exact sliceIterRead_take_drop r n (by omega) h2

theorem read_boundary_behaviour_witness :
    sliceIterRead [7, 8] 3 = (.error ⟨2, 3⟩, [7, 8]) ∧
    sliceIterRead [7, 8] 1 = (.ok [7], [8]) :=
  ⟨(read_boundary_behaviour [7, 8] 3).1 (by norm_num),
   (read_boundary_behaviour [7, 8] 1).2.1 (by norm_num) (by norm_num)⟩

/-- C4: encoding the string "here" (bytes 104,101,114,101) with the
default delegate, little-endian order and the 8-byte platform word yields
exactly an 8-byte length prefix `4` followed by the raw bytes; decoding
those bytes as a `str` from the slice-backed transport succeeds with no
remaining input, and the returned string view is exactly the byte region
of the input at offset 8 — the borrowed region handed out by the
transport's zero-copy `read`. -/
theorem str_here_concrete :
    serValue .little (.str [104, 101, 114, 101]) =
      [4, 0, 0, 0, 0, 0, 0, 0, 104, 101, 114, 101] ∧
    deValue defaultDelegate .little .str [4, 0, 0, 0, 0, 0, 0, 0, 104, 101, 114, 101] =
      .ok (.str (List.take 4 (List.drop 8 [4, 0, 0, 0, 0, 0, 0, 0, 104, 101, 114, 101])), []) ∧
    List.take 4 (List.drop 8 ([4, 0, 0, 0, 0, 0, 0, 0, 104, 101, 114, 101] : List Nat)) =
      [104, 101, 114, 101] :=
  ⟨rfl, rfl, rfl⟩

/-- C5: with the default delegate, `None` encodes to the 4-byte variant
word `0` alone — for any byte order, hence for any inner type, nothing
else — which is `[0,0,0,0]` in little-endian; `Some(5u8)` encodes to the
4-byte variant word `1` followed by the single payload byte. -/
theorem option_encoding_concrete :
    (∀ e : Endian, serValue e (.option none) = writeWord e 4 0) ∧
    serValue .little (.option none) = [0, 0, 0, 0] ∧
    serValue .little (.option (some (.u8 5))) = [1, 0, 0, 0, 5] :=
  ⟨fun _ => rfl, rfl, rfl⟩

/-- C10: decoding a bool consumes exactly one byte and never fails,
whatever the delegate and byte order: the byte `0` decodes to `false` and
every nonzero byte decodes to `true` (`b[0] != 0`), with no
discriminant-style check. -/
theorem bool_decode_total (H : DeDelegate) (e : Endian) (b : Nat) (rest : List Nat) :
    deValue H e .bool (b :: rest) = .ok (.bool (b != 0), rest) ∧
    deValue H e .bool (0 :: rest) = .ok (.bool false, rest) ∧
    (b ≠ 0 → deValue H e .bool (b :: rest) = .ok (.bool true, rest)) := by
  refine ⟨?_, ?_, ?_⟩
  · simp [deValue, sliceIterRead_one]
  · simp [deValue, sliceIterRead_one]
  · intro h
    simp [deValue, sliceIterRead_one, h]

theorem bool_decode_total_witness :
    (7 : Nat) ≠ 0 ∧
    deValue defaultDelegate .little .bool [7, 3] = .ok (.bool true, [3]) :=
  ⟨by norm_num, (bool_decode_total defaultDelegate .little 7 [3]).2.2 (by norm_num)⟩

/-- C9: the default deserializer delegate declares no sequence length
prefix (`sequence_length_size` is `0`, `decode_sequence_length` always
answers "unknown") — but the decoder does not then pull elements until
exhaustion: the cursor's first pull issues `read(0)`, whose `nth(0 - 1)`
wrap-around drains the whole input (a debug build panics), so the pull
reports exhaustion immediately with the reader emptied, and decoding a
sequence of bytes from the nonempty input `[5]` yields the empty sequence
instead of `[5]`'s element. -/
theorem seq_unknown_length_drains (e : Endian) (bs : List Nat) (s : Shape) :
    defaultDelegate.sequenceLengthSize = 0 ∧
    defaultDelegate.decodeSequenceLength e bs = none ∧
    seqPull defaultDelegate e (deValue defaultDelegate e s) [5] none =
      .ok (none, [], some (USIZE_MAX - 1)) ∧
    deValue defaultDelegate .little (.seq .u8) [5] = .ok (.seq [], []) :=
  ⟨rfl, rfl, rfl, rfl⟩

/-- C6: decoding an option first reads `variant_size()` bytes and decodes
them with the delegate's `decode_variant`; a token of `0` yields the
absent value consuming nothing further, `1` hands the remaining bytes to
the inner decode, and any other token `t` fails with the
unexpected-variant error carrying `t` itself. -/
theorem option_decode_dispatch (H : DeDelegate) (e : Endian) (s : Shape) (r : List Nat)
    (hpos : 0 < H.variantSize) (hlen : H.variantSize ≤ r.length) :
    (H.decodeVariant e (r.take H.variantSize) = 0 →
      deValue H e (.option s) r = .ok (.option none, r.drop H.variantSize)) ∧
    (H.decodeVariant e (r.take H.variantSize) = 1 →
      deValue H e (.option s) r =
        (deValue H e s (r.drop H.variantSize)).map (fun p => (.option (some p.1), p.2))) ∧
    (∀ t, H.decodeVariant e (r.take H.variantSize) = t → t ≠ 0 → t ≠ 1 →
      deValue H e (.option s) r = .error (.unexpectedVariant t)) := by
  have hread : sliceIterRead r H.variantSize = (.ok (r.take H.variantSize), r.drop H.variantSize) :=
    sliceIterRead_take_drop r H.variantSize (by omega) hlen
  refine ⟨?_, ?_, ?_⟩
  · intro h0
    simp [deValue, hread, h0]
  · intro h1
    simp only [deValue, hread, h1]
    norm_num
    cases hd : deValue H e s (r.drop H.variantSize) with
    | ok p =>
      cases p
      simp [Except.map]
    | error er => simp [Except.map]
  · intro t ht h0 h1
    simp only [deValue, hread, ht]
    rw [if_neg h0, if_neg h1]

theorem option_decode_dispatch_witness :
    0 < defaultDelegate.variantSize ∧
    defaultDelegate.variantSize ≤ ([2, 0, 0, 0] : List Nat).length ∧
    deValue defaultDelegate .little (.option .u8) [2, 0, 0, 0] =
      .error (.unexpectedVariant 2) :=
  ⟨by decide, by decide,
   (option_decode_dispatch defaultDelegate .little .u8 [2, 0, 0, 0] (by decide)
      (by decide)).2.2 2 (by decide) (by norm_num) (by norm_num)⟩

/-- C8: decoding an enum obtains the variant index by recursively decoding
a plain unsigned 32-bit integer — four bytes in the configured byte
order — for every delegate, never through the delegate's `decode_variant`,
and then dispatches on the indexed variant's unit/newtype/tuple/struct
form; with the contrarian delegate (whose variant policy answers width 2
and value 7) the index is still the plain 4-byte word. -/
theorem enum_index_plain_u32 (H : DeDelegate) (e : Endian) (vs : List VariantShape)
    (r : List Nat) (hlen : 4 ≤ r.length) :
    deValue H e (.enum vs) r =
      deVariantList H e vs (readWord e 4 (r.take 4)) (readWord e 4 (r.take 4)) (r.drop 4) ∧
    (∀ rest : List Nat,
      deValue contrarianDelegate e (.enum [.unit, .unit]) (writeWord e 4 1 ++ rest) =
        .ok (.enumUnit 1, rest)) := by
  constructor
  · simp only [deValue, sliceIterRead_take_drop r 4 (by norm_num) hlen]
  · intro rest
    simp only [deValue, sliceIterRead_word e (show (0:Nat) < 4 by norm_num) 1 rest,
      readWord_writeWord]
    norm_num
    rfl

theorem enum_index_plain_u32_witness :
    4 ≤ ([1, 0, 0, 0, 9] : List Nat).length ∧
    deValue defaultDelegate .little (.enum [.unit, .newtype .u8]) [1, 0, 0, 0, 9] =
      deVariantList defaultDelegate .little [.unit, .newtype .u8]
        (readWord .little 4 ([1, 0, 0, 0, 9].take 4))
        (readWord .little 4 ([1, 0, 0, 0, 9].take 4)) ([1, 0, 0, 0, 9].drop 4) :=
  ⟨by norm_num,
   (enum_index_plain_u32 defaultDelegate .little [.unit, .newtype .u8] [1, 0, 0, 0, 9]
      (by norm_num)).1⟩

/-- C3 (amended): a cursor with declared length `N` admits exactly `N`
successful pulls — the remaining count decremented to `0` — before the
next pull reports exhaustion, provided the element decode succeeds and
leaves data behind whenever data remains and the transport is nonempty to
begin with.  (As stated the claim fails: the cursor checks transport
exhaustion before each pull, so a zero-byte element on an exhausted
transport ends the cursor early even though its decode would succeed.) -/
theorem countPulls_succ_of_pull (H : DeDelegate) (e : Endian)
    (f : List Nat → Except DeErr (Value × List Nat)) (fuel : Nat) (r : List Nat)
    (len : Option Nat) (v : Value) (r' : List Nat) (len' : Option Nat)
    (h : seqPull H e f r len = .ok (some v, r', len')) :
    countPulls H e f (fuel + 1) r len =
      match countPulls H e f fuel r' len' with
      | .error er => .error er
      | .ok (k, st) => .ok (k + 1, st) := by
  simp only [countPulls, h]

theorem declared_length_pull_count (H : DeDelegate) (e : Endian)
    (f : List Nat → Except DeErr (Value × List Nat))
    (hf : ∀ r', r' ≠ [] → ∃ v r'', f r' = .ok (v, r'') ∧ r'' ≠ []) :
    ∀ (N : Nat) (r : List Nat), r ≠ [] →
      ∃ rf, countPulls H e f (N + 1) r (some N) = .ok (N, rf, some 0) := by
  intro N
  induction N with
  | zero =>
    intro r hr
    exact ⟨r, rfl⟩
  | succ N ihN =>
    intro r hr
    obtain ⟨v, r'', hfr, hr''⟩ := hf r hr
    obtain ⟨rf, hrec⟩ := ihN r'' hr''
    refine ⟨rf, ?_⟩
    have hstep : seqPull H e f r (some (N + 1)) = .ok (some v, r'', some N) := by
      simp only [seqPull, sliceIterIs_of_ne_nil hr, hfr, Nat.add_sub_cancel]
      norm_num
    rw [countPulls_succ_of_pull H e f (N + 1) r (some (N + 1)) v r'' (some N) hstep, hrec]

theorem declared_length_pull_count_witness :
    (∀ r' : List Nat, r' ≠ [] →
      ∃ v r'', deValue defaultDelegate .little .unit r' = .ok (v, r'') ∧ r'' ≠ []) ∧
    ([7] : List Nat) ≠ [] ∧
    ∃ rf, countPulls defaultDelegate .little (deValue defaultDelegate .little .unit)
        (2 + 1) [7] (some 2) = .ok (2, rf, some 0) :=
  ⟨fun r' h => ⟨.unit, r', rfl, h⟩, by norm_num,
   declared_length_pull_count defaultDelegate .little
     (deValue defaultDelegate .little .unit)
     (fun r' h => ⟨.unit, r', rfl, h⟩) 2 [7] (by norm_num)⟩

/-- C3 as stated is false: a cursor declared with length 1 over an
exhausted transport reports exhaustion at once — zero pulls succeed —
even though the element decode (here the unit decode, which consumes
nothing) succeeds on any input. -/
theorem declared_length_pull_count_counterexample :
    deValue defaultDelegate .little .unit [] = .ok (.unit, []) ∧
    countPulls defaultDelegate .little (deValue defaultDelegate .little .unit)
      2 [] (some 1) = .ok (0, [], some 0) ∧
    countPulls defaultDelegate .little (deValue defaultDelegate .little .unit)
      2 [] (some 1) ≠ .ok (1, [], some 0) := by
  refine ⟨rfl, rfl, ?_⟩
  intro h
  rw [show countPulls defaultDelegate .little (deValue defaultDelegate .little .unit)
      2 [] (some 1) = .ok (0, [], some 0) from rfl] at h
  simp at h

/-- C1 (amended): round-trip holds for every valid value of the decodable
fragment — booleans, full-range integers, float bit patterns including
NaN/Infinity, chars, nonempty strings and byte strings, nested options,
units, tuples/structs and all enum variant forms whose fields each encode
to at least one byte — with either byte order and the default delegates:
decoding the serialized bytes yields exactly the value with nothing left
over.  (As stated the claim fails for sequences and maps, whose encoder
length prefix the decoder never reads, for empty strings/byte strings
inside containers, and for zero-byte tuple fields; see the
counterexample.) -/
theorem round_trip (e : Endian) (v : Value) (s : Shape)
    (h1 : rtOK v = true) (h2 : hasShape v s = true) :
    deValue defaultDelegate e s (serValue e v) = .ok (v, []) := by
  have h := deValue_serValue e v s [] h1 h2
  rwa [List.append_nil] at h

theorem round_trip_witness :
    rtOK (.enumStruct 1 [.u8 7, .str [104, 101, 114, 101], .option (some (.i8 (-5))),
      .char 955, .tuple [.bool true, .u64 18446744073709551615]]) = true ∧
    hasShape (.enumStruct 1 [.u8 7, .str [104, 101, 114, 101], .option (some (.i8 (-5))),
        .char 955, .tuple [.bool true, .u64 18446744073709551615]])
      (.enum [.unit, .struct [.u8, .str, .option .i8, .char, .tuple [.bool, .u64]]]) = true ∧
    deValue defaultDelegate .little
        (.enum [.unit, .struct [.u8, .str, .option .i8, .char, .tuple [.bool, .u64]]])
        (serValue .little (.enumStruct 1 [.u8 7, .str [104, 101, 114, 101],
          .option (some (.i8 (-5))), .char 955,
          .tuple [.bool true, .u64 18446744073709551615]])) =
      .ok (.enumStruct 1 [.u8 7, .str [104, 101, 114, 101], .option (some (.i8 (-5))),
        .char 955, .tuple [.bool true, .u64 18446744073709551615]], []) :=
  ⟨by decide, by decide,
   round_trip .little
     (.enumStruct 1 [.u8 7, .str [104, 101, 114, 101], .option (some (.i8 (-5))),
       .char 955, .tuple [.bool true, .u64 18446744073709551615]])
     (.enum [.unit, .struct [.u8, .str, .option .i8, .char, .tuple [.bool, .u64]]])
     (by decide) (by decide)⟩

/-- C1 as stated is false on the code: a one-element sequence does not
round-trip (the decoder drains the input on its first pull and returns
the empty sequence); a tuple with a zero-byte field fails with the
invalid-length error, as does a tuple holding an empty string followed by
another field (the zero-length payload read empties the reader). -/
theorem round_trip_counterexample :
    deValue defaultDelegate .little (.seq .u8) (serValue .little (.seq [.u8 5])) ≠
      .ok (.seq [.u8 5], []) ∧
    deValue defaultDelegate .little (.tuple [.unit]) (serValue .little (.tuple [.unit])) =
      .error .invalidLength ∧
    deValue defaultDelegate .little (.tuple [.str, .u8])
        (serValue .little (.tuple [.str [], .u8 9])) = .error .invalidLength := by
  refine ⟨?_, rfl, rfl⟩
  intro h
  rw [show deValue defaultDelegate .little (.seq .u8) (serValue .little (.seq [.u8 5])) =
      .ok (.seq [], []) from rfl] at h
  simp at h

end Tirse
